import Mathlib

/-!
Shallow embedding of the document-matching core in `src/main.py`
(class `DocumentMatcher` with `add_sample`, `add_document`, `direct_match`,
`indirect_match`, `flatten_doc`, plus the module-level `lambda_handler`).

JSON-like values are modelled by the inductive `Value`; Python dicts are
modelled as insertion-ordered association lists (`Fields`), which is exactly
the observable behaviour of a Python `dict`: iteration in insertion order,
`d[k] = v` overwriting in place, keys unique.  Python `==` on such values is
modelled by `pyEq`: structural equality on scalars, element-wise on lists,
and on mappings equality of key sets together with equality of the values at
every key, which coincides with CPython's
`len(a) == len(b) and all(b[k] == v ...)` on duplicate-free key lists.
-/

/-- JSON-like values as delivered by `json.loads`: strings, integers,
arrays, and objects (insertion-ordered mappings). -/
inductive Value where
  | vStr (s : String)
  | vInt (n : Int)
  | vList (l : List Value)
  | vMap (m : List (String × Value))
deriving Repr

/-- The entries of a Python dict, in insertion order. -/
abbrev Fields := List (String × Value)

/-- `d[k] = v` on a Python dict: overwrite in place if the key exists,
otherwise append at the end. -/
def dictSet {β : Type} : List (String × β) → String → β → List (String × β)
  | [], k, v => [(k, v)]
  | (k', v') :: rest, k, v =>
      if k' = k then (k', v) :: rest else (k', v') :: dictSet rest k v

/-- `d[k]` / `d.get(k)` on a Python dict: the value at the first entry whose
key is `k`. -/
def dictGet? {β : Type} : List (String × β) → String → Option β
  | [], _ => none
  | (k', v) :: rest, k => if k' = k then some v else dictGet? rest k

/-- `k in d` on a Python dict. -/
def containsKey {β : Type} (d : List (String × β)) (k : String) : Bool :=
  (dictGet? d k).isSome

/-- `d.update(other)` on a Python dict: set every entry of `other`
in insertion order. -/
def dictUpdate {β : Type} (d other : List (String × β)) : List (String × β) :=
  other.foldl (fun acc kv => dictSet acc kv.1 kv.2) d

/-- Mutual key-inclusion test used by mapping equality: every key of `a`
occurs among the keys of `b`. -/
def keysIncl (a b : List (String × Value)) : Bool :=
  a.all (fun p => b.any (fun q => q.1 == p.1))

mutual

/-- Python `==` on the modelled values.  On mappings: equal key sets
(mutual inclusion) and, entry by entry, equal values at every key — the
assoc-list transcription of CPython's `len(a) == len(b)` plus one-sided
value scan on duplicate-free key lists. -/
def pyEq : Value → Value → Bool
  | .vStr a, .vStr b => a == b
  | .vInt a, .vInt b => a == b
  | .vList a, .vList b => pyEqList a b
  | .vMap a, .vMap b => keysIncl a b && keysIncl b a && pyEqFields a b
  | _, _ => false
termination_by structural v _ => v

/-- Python `==` on lists: element-wise. -/
def pyEqList : List Value → List Value → Bool
  | [], [] => true
  | x :: xs, y :: ys => pyEq x y && pyEqList xs ys
  | _, _ => false
termination_by structural l _ => l

/-- Every entry of `a` has a `pyEq`-equal value at the same key in `b`. -/
def pyEqFields : List (String × Value) → List (String × Value) → Bool
  | [], _ => true
  | (_k, v) :: rest, b =>
      (match dictGet? b _k with
       | some w => pyEq v w
       | none => false) && pyEqFields rest b
termination_by structural a _ => a

end

mutual

/-- `flatten_doc`'s loop (`src/main.py:90-101`): iterate the entries in
order, handling each entry with `flatten_entry`. -/
def flatten_go : Fields → String → Fields → Fields
  | [], _, acc => acc
  | (key, value) :: rest, parent_key, acc =>
      let new_key := if parent_key = "" then key else parent_key ++ "." ++ key
      flatten_go rest parent_key (flatten_entry value key new_key acc)
termination_by structural d _ _ => d

/-- One entry of `flatten_doc`'s loop: a mapping value is flattened
recursively — the source passes the bare `key`, not the accumulated
`new_key`, as the parent key — and merged with `dict.update`; any other
value is stored under `new_key`. -/
def flatten_entry : Value → String → String → Fields → Fields
  | .vMap m, key, _new_key, acc => dictUpdate acc (flatten_go m key [])
  | v, _key, new_key, acc => dictSet acc new_key v
termination_by structural v _ _ _ => v

end

/-- `flatten_doc(doc)` with the source's default arguments
(`parent_key=''`, `sep='.'`). -/
def flatten_doc (doc : Fields) : Fields := flatten_go doc "" []

/-- One persistence call issued through the storage collaborator
(`put_item` on `SampleTable` resp. `MatchedDocuments`). -/
inductive PutCall where
  | putSample (id : String) (desc : Fields)
  | putMatched (id : String) (doc : Value)
deriving Repr

/-- The in-memory state of a `DocumentMatcher` instance together with the
two DynamoDB tables it writes through (modelled as key-to-latest-put maps)
and the ordered log of every `put_item` call it has issued. -/
structure DocumentMatcher where
  samples : List (String × Fields)
  documents : List Value
  «matches» : List (String × List Value)
  sampleTable : List (String × Fields)
  matchedTable : List (String × Value)
  log : List PutCall
deriving Repr

/-- `DocumentMatcher.__init__`: all collections start empty. -/
def initMatcher : DocumentMatcher := ⟨[], [], [], [], [], []⟩

/-- `add_sample` (`src/main.py:31-33`). -/
def add_sample (st : DocumentMatcher) (sample_id : String)
    (sample_description : Fields) : DocumentMatcher :=
  { st with
    samples := dictSet st.samples sample_id sample_description
    sampleTable := dictSet st.sampleTable sample_id sample_description
    log := st.log ++ [.putSample sample_id sample_description] }

/-- `direct_match` (`src/main.py:55-64`): collect the id of every sample
some of whose description values equals some value of the (flattened)
document; return `None` when the collected list is empty. -/
def direct_match (samples : List (String × Fields)) (document : Fields) :
    Option (List String) :=
  let matched_samples := samples.filterMap (fun sd =>
    if document.any (fun dv => sd.2.any (fun sv => pyEq sv.2 dv.2)) then
      some sd.1
    else none)
  if matched_samples.isEmpty then none else some matched_samples

/-- The field collection a value contributes to `indirect_match`'s
`doc[key1]` iteration: the entries when it is a mapping. -/
def fieldsOf : Value → Fields
  | .vMap m => m
  | _ => []

/-- `any(doc[key1] == match_doc[key2] for key1 in doc for key2 in match_doc)`
(`src/main.py:76`). -/
def fieldMatch (doc match_doc : Value) : Bool :=
  (fieldsOf doc).any (fun p => (fieldsOf match_doc).any (fun q => pyEq p.2 q.2))

/-- Python's `x in l` on a list: some element compares `==` to `x`
(CPython compares with the element on the left). -/
def pyMem (x : Value) (l : List Value) : Bool := l.any (fun m => pyEq m x)

/-- The condition under which `indirect_match`'s inner loop appends `doc` to
a group `g`: some member differs from `doc` but shares a field value with
it, and `doc` is not already a member (`src/main.py:69-78`). -/
def shouldAppend (doc : Value) (g : List Value) : Bool :=
  (g.any (fun m => !pyEq doc m && fieldMatch doc m)) && !pyMem doc g

/-- One iteration of `indirect_match`'s outer loop: test `doc` against every
group, appending it (and issuing the corresponding `put_item`) where
`shouldAppend` holds. -/
def indirectDocStep (st : DocumentMatcher) (doc : Value) : DocumentMatcher :=
  let puts := (st.«matches».filter (fun e => shouldAppend doc e.2)).map
    (fun e => (e.1, doc))
  { st with
    «matches» := st.«matches».map (fun e =>
      if shouldAppend doc e.2 then (e.1, e.2 ++ [doc]) else e)
    matchedTable := puts.foldl (fun t p => dictSet t p.1 p.2) st.matchedTable
    log := st.log ++ puts.map (fun p => .putMatched p.1 p.2) }

/-- `indirect_match` (`src/main.py:66-79`): rescan the whole document
history against every group.  The `new_doc` parameter is never read. -/
def indirect_match (st : DocumentMatcher) (new_doc : Fields) : DocumentMatcher :=
  st.documents.foldl indirectDocStep st

/-- The body of `add_document`'s direct-match seeding loop
(`src/main.py:44-51`): create the group if absent, then append the document
and persist unless it is already a member. -/
def directSeedOne (document : Fields) (st : DocumentMatcher)
    (sample_id : String) : DocumentMatcher :=
  let st :=
    if containsKey st.«matches» sample_id then st
    else { st with «matches» := st.«matches» ++ [(sample_id, [])] }
  let g := (dictGet? st.«matches» sample_id).getD []
  if pyMem (.vMap document) g then st
  else
    { st with
      «matches» := dictSet st.«matches» sample_id (g ++ [.vMap document])
      matchedTable := dictSet st.matchedTable sample_id (.vMap document)
      log := st.log ++ [.putMatched sample_id (.vMap document)] }

/-- `add_document` (`src/main.py:35-53`): append to the history, flatten,
seed groups from the direct matches when there are any, then rescan. -/
def add_document (st : DocumentMatcher) (document : Fields) : DocumentMatcher :=
  let st1 := { st with documents := st.documents ++ [Value.vMap document] }
  let flattened_doc := flatten_doc document
  let st2 :=
    match direct_match st1.samples flattened_doc with
    | none => st1
    | some ids => ids.foldl (directSeedOne document) st1
  indirect_match st2 flattened_doc

/-- The two mutating entry points of the matcher. -/
inductive Op where
  | addSample (id : String) (desc : Fields)
  | addDoc (d : Fields)

/-- Run one operation. -/
def runOp (st : DocumentMatcher) : Op → DocumentMatcher
  | .addSample i d => add_sample st i d
  | .addDoc d => add_document st d

/-- Run a sequence of operations. -/
def runOps (st : DocumentMatcher) (ops : List Op) : DocumentMatcher :=
  ops.foldl runOp st

/-- Outcome of `lambda_handler`: the two returned statuses, or an exception
that escapes the handler (no status at all). -/
inductive HandlerRes where
  | ok200
  | err500
  | unhandled
deriving Repr, DecidableEq

/-- The HTTP status code carried by a handler outcome, when one is
returned. -/
def statusCode : HandlerRes → Option Nat
  | .ok200 => some 200
  | .err500 => some 500
  | .unhandled => none

/-- `lambda_handler` (`src/main.py:125-144`).  Each record's body is a
payload: `none` models a body `json.loads` cannot decode (the call sits
outside the `try`, so the exception escapes the handler); a decoded value
that is not an object makes `add_document` raise after it has already
appended the document to the history (`self.documents.append` precedes
`flatten_doc`), which the handler catches, returning 500 and abandoning the
remaining records. -/
def lambda_handler (st : DocumentMatcher) :
    List (Option Value) → HandlerRes × DocumentMatcher
  | [] => (.ok200, st)
  | none :: _ => (.unhandled, st)
  | some v :: rest =>
      match v with
      | .vMap d => lambda_handler (add_document st d) rest
      | _ => (.err500, { st with documents := st.documents ++ [v] })

/-! ### Concrete data used by the scenario theorems -/

/-- `D1={"k1":1234,"k2":"abc"}` from the spec's transitivity example. -/
def exD1 : Fields := [("k1", .vInt 1234), ("k2", .vStr "abc")]

/-- `D2={"k1":"abc","k3":"xyz"}` from the spec's transitivity example. -/
def exD2 : Fields := [("k1", .vStr "abc"), ("k3", .vStr "xyz")]

/-- A sample description that directly matches `exD1` (shares `1234`). -/
def exSampleS : Fields := [("v", .vInt 1234)]

/-- Register `exSampleS` under id `"S"`, then ingest `exD1` (seeding group
`"S"` by direct match) and `exD2` (pulled in by indirect match). -/
def scenarioOps : List Op := [.addSample "S" exSampleS, .addDoc exD1, .addDoc exD2]

/-- A sample whose single description value `"abc"` directly matches `exD2`. -/
def scenarioOpsB : List Op := [.addSample "S" [("v", .vStr "abc")], .addDoc exD2]

/-! ### Association-list lemmas -/

/-- Looking up after a set: the set key now maps to the new value and every
other key is untouched. -/
theorem dictGet?_dictSet {β : Type} (d : List (String × β)) (k k' : String) (v : β) :
    dictGet? (dictSet d k v) k' = if k' = k then some v else dictGet? d k' := by
  induction d with
  | nil =>
      simp only [dictSet, dictGet?]
      by_cases h : k = k'
      · simp [h]
      · have h' : ¬k' = k := fun hh => h hh.symm
        simp [h, h']
  | cons e rest ih =>
      obtain ⟨a, b⟩ := e
      simp only [dictSet]
      by_cases hak : a = k
      · subst hak
        simp only [if_pos rfl, dictGet?]
        by_cases h : a = k'
        · simp [h]
        · have h' : ¬k' = a := fun hh => h hh.symm
          simp [dictGet?, h, h']
      · simp only [if_neg hak, dictGet?, ih]
        by_cases h1 : a = k'
        · subst h1
          have h' : ¬a = k := hak
          simp [h']
        · simp [h1]

/-- Lookup distributes over append, preferring the left list. -/
theorem dictGet?_append {β : Type} (d e : List (String × β)) (k : String) :
    dictGet? (d ++ e) k =
      match dictGet? d k with
      | some v => some v
      | none => dictGet? e k := by
  induction d with
  | nil => simp [dictGet?]
  | cons p rest ih =>
      obtain ⟨a, b⟩ := p
      by_cases h : a = k <;> simp [dictGet?, h, ih]

/-- A lookup fails exactly when the key is absent. -/
theorem dictGet?_eq_none_iff {β : Type} (d : List (String × β)) (k : String) :
    dictGet? d k = none ↔ k ∉ d.map Prod.fst := by
  induction d with
  | nil => simp [dictGet?]
  | cons p rest ih =>
      obtain ⟨a, b⟩ := p
      by_cases h : a = k
      · subst h
        simp [dictGet?]
      · have h' : ¬k = a := fun hh => h hh.symm
        simp [dictGet?, h, ih, h']

/-- A successful lookup returns an entry of the list. -/
theorem mem_of_dictGet? {β : Type} {d : List (String × β)} {k : String} {v : β}
    (h : dictGet? d k = some v) : (k, v) ∈ d := by
  induction d with
  | nil => simp [dictGet?] at h
  | cons p rest ih =>
      obtain ⟨a, b⟩ := p
      by_cases hak : a = k
      · subst hak
        simp [dictGet?] at h
        simp [h]
      · simp [dictGet?, hak] at h
        exact List.mem_cons_of_mem _ (ih h)

/-- Setting a key never shrinks a dict. -/
theorem length_le_dictSet {β : Type} (d : List (String × β)) (k : String) (v : β) :
    d.length ≤ (dictSet d k v).length := by
  induction d with
  | nil => simp [dictSet]
  | cons p rest ih =>
      obtain ⟨a, b⟩ := p
      by_cases h : a = k <;> simp [dictSet, h]
      omega

/-- Setting an already-present key leaves the key list unchanged. -/
theorem keys_dictSet_of_contains {β : Type} {d : List (String × β)} {k : String}
    (v : β) (h : containsKey d k = true) :
    (dictSet d k v).map Prod.fst = d.map Prod.fst := by
  induction d with
  | nil => simp [containsKey, dictGet?] at h
  | cons p rest ih =>
      obtain ⟨a, b⟩ := p
      by_cases hak : a = k
      · simp [dictSet, hak]
      · simp only [containsKey, dictGet?, if_neg hak] at h
        simp [dictSet, hak, ih (by simpa [containsKey] using h)]

/-- Setting an absent key appends it to the key list. -/
theorem keys_dictSet_of_not_contains {β : Type} {d : List (String × β)} {k : String}
    (v : β) (h : containsKey d k = false) :
    (dictSet d k v).map Prod.fst = d.map Prod.fst ++ [k] := by
  induction d with
  | nil => simp [dictSet]
  | cons p rest ih =>
      obtain ⟨a, b⟩ := p
      by_cases hak : a = k
      · simp [containsKey, dictGet?, hak] at h
      · simp only [containsKey, dictGet?, if_neg hak] at h
        simp [dictSet, hak, ih (by simpa [containsKey] using h)]

/-- If `x` is not a `pyEq`-member of a list it is not a member of any
prefix of it. -/
theorem pyMem_eq_false_of_prefix {g g' : List Value} {x : Value}
    (hp : g <+: g') (h : pyMem x g' = false) : pyMem x g = false := by
  rcases hp with ⟨t, rfl⟩
  simp [pyMem] at h ⊢
  exact fun m hm => h.1 m hm

/-! ### Direct matcher lemmas -/

/-- Membership in `direct_match`'s collected id list, characterised: the id
of a registered sample is collected exactly when some value of the document
compares equal to some top-level value of the sample's description. -/
theorem direct_match_mem_aux (samples : List (String × Fields)) (document : Fields)
    (sid : String) :
    (sid ∈ samples.filterMap (fun sd =>
        if document.any (fun dv => sd.2.any (fun sv => pyEq sv.2 dv.2)) then
          some sd.1
        else none)) ↔
      ∃ desc, (sid, desc) ∈ samples ∧
        ∃ p ∈ document, ∃ q ∈ desc, pyEq q.2 p.2 = true := by
  rw [List.mem_filterMap]
  constructor
  · rintro ⟨⟨a, desc⟩, hmem, hf⟩
    by_cases hc : document.any (fun dv => desc.any (fun sv => pyEq sv.2 dv.2)) = true
    · simp only [hc, if_true, Option.some.injEq] at hf
      subst hf
      refine ⟨desc, hmem, ?_⟩
      simpa [List.any_eq_true] using hc
    · rw [Bool.not_eq_true] at hc
      simp [hc] at hf
  · rintro ⟨desc, hmem, hex⟩
    refine ⟨(sid, desc), hmem, ?_⟩
    have hc : document.any (fun dv => desc.any (fun sv => pyEq sv.2 dv.2)) = true := by
      simpa [List.any_eq_true] using hex
    simp [hc]

/-- C2.  `direct_match` returns the id of every sample sharing a value with
the flattened document (all of them, against the sample's raw top-level
values); the spec's positive example matches, and a sample holding a nested
mapping is not matched through that mapping's inner fields. -/
theorem direct_match_correct :
    (∀ (samples : List (String × Fields)) (document : Fields) (sid : String),
        (∃ ids, direct_match samples document = some ids ∧ sid ∈ ids) ↔
          ∃ desc, (sid, desc) ∈ samples ∧
            ∃ p ∈ document, ∃ q ∈ desc, pyEq q.2 p.2 = true) ∧
    direct_match [("s1", [("a", .vStr "x"), ("b", .vStr "y")])]
        [("a", .vStr "x"), ("c", .vStr "z")] = some ["s1"] ∧
    direct_match [("s1", [("nested", .vMap [("inner", .vStr "x")])])]
        [("f.inner", .vStr "x")] = none := by
  refine ⟨?_, rfl, rfl⟩
  intro samples document sid
  simp only [direct_match]
  by_cases he : (samples.filterMap (fun sd =>
      if document.any (fun dv => sd.2.any (fun sv => pyEq sv.2 dv.2)) then
        some sd.1
      else none)).isEmpty = true
  · rw [if_pos he]
    rw [List.isEmpty_iff] at he
    constructor
    · rintro ⟨ids, h, -⟩
      exact Option.noConfusion h
    · intro hr
      have hmem := (direct_match_mem_aux samples document sid).mpr hr
      rw [he] at hmem
      simp at hmem
  · rw [if_neg he]
    constructor
    · rintro ⟨ids, hids, hsid⟩
      rw [Option.some.injEq] at hids
      subst hids
      exact (direct_match_mem_aux samples document sid).mp hsid
    · intro hr
      exact ⟨_, rfl, (direct_match_mem_aux samples document sid).mpr hr⟩

/-- C9.  With no value shared with any registered sample — in particular
with an empty registry — `direct_match` returns `None`, and `add_document`
then performs no direct-match seeding at all: it reduces to the history
append followed by the rescan. -/
theorem direct_match_none_seeds_nothing :
    (∀ (samples : List (String × Fields)) (document : Fields),
        (∀ p ∈ samples, ∀ q ∈ document, ∀ r ∈ p.2, pyEq r.2 q.2 = false) →
          direct_match samples document = none) ∧
    (∀ document : Fields, direct_match [] document = none) ∧
    ∀ (st : DocumentMatcher) (document : Fields),
      direct_match st.samples (flatten_doc document) = none →
        add_document st document =
          indirect_match { st with documents := st.documents ++ [.vMap document] }
            (flatten_doc document) := by
  refine ⟨?_, fun _ => rfl, ?_⟩
  · intro samples document h
    simp only [direct_match]
    have hnil : (samples.filterMap (fun sd =>
        if document.any (fun dv => sd.2.any (fun sv => pyEq sv.2 dv.2)) then
          some sd.1
        else none)) = [] := by
      rw [List.filterMap_eq_nil_iff]
      intro sd hsd
      have hall : document.any (fun dv => sd.2.any (fun sv => pyEq sv.2 dv.2)) = false := by
        rw [List.any_eq_false]
        intro dv hdv
        rw [Bool.not_eq_true, List.any_eq_false]
        intro sv hsv
        rw [Bool.not_eq_true]
        exact h sd hsd dv hdv sv hsv
      simp [hall]
    simp [hnil]
  · intro st document h
    simp only [add_document, h]

/-- C8.  `indirect_match` never reads its `new_doc` argument: from the same
state, any two arguments produce identical final states — same history,
same match groups, and the same sequence of persistence calls. -/
theorem indirect_match_ignores_new_doc :
    ∀ (st : DocumentMatcher) (a b : Fields),
      indirect_match st a = indirect_match st b ∧
      (indirect_match st a).documents = (indirect_match st b).documents ∧
      (indirect_match st a).«matches» = (indirect_match st b).«matches» ∧
      (indirect_match st a).log = (indirect_match st b).log :=
  fun _ _ _ => ⟨rfl, rfl, rfl, rfl⟩

/-- C10.  A batch with no records returns status 200 and leaves the matcher
state — history, registry, and groups — untouched. -/
theorem lambda_handler_empty_records :
    ∀ st : DocumentMatcher,
      lambda_handler st [] = (.ok200, st) ∧
      statusCode (lambda_handler st []).1 = some 200 ∧
      (lambda_handler st []).2.documents = st.documents ∧
      (lambda_handler st []).2.samples = st.samples ∧
      (lambda_handler st []).2.«matches» = st.«matches» :=
  fun _ => ⟨rfl, rfl, rfl, rfl, rfl⟩

/-- C1 (code bug exhibit).  At nesting depth 3 the recursion loses the
ancestor path: `{"a": {"b": {"c": 1}}}` flattens to `{"b.c": 1}`, not
`{"a.b.c": 1}`, because line 98 passes `key` instead of `new_key`; two
sibling branches can then collide on their truncated paths, silently
dropping a leaf (second example). -/
theorem flatten_doc_drops_ancestor_paths :
    flatten_doc [("a", .vMap [("b", .vMap [("c", .vInt 1)])])] = [("b.c", .vInt 1)] ∧
    containsKey (flatten_doc [("a", .vMap [("b", .vMap [("c", .vInt 1)])])]) "a.b.c" = false ∧
    flatten_doc [("a", .vMap [("c", .vMap [("x", .vInt 1)])]),
        ("b", .vMap [("c", .vMap [("x", .vInt 2)])])] = [("c.x", .vInt 2)] :=
  ⟨rfl, rfl, rfl⟩

/-- C5 (code bug exhibit).  A record whose payload decodes to a non-object
makes the handler return 500 at once: the remaining records of the batch
are never processed, and the failing document has already been appended to
the in-memory history.  A payload that does not decode at all raises
outside the `try`, so no status is returned and nothing after it runs. -/
theorem lambda_handler_batch_abort :
    (lambda_handler initMatcher
        [some (.vMap [("k", .vInt 1)]), some (.vList [.vInt 1, .vInt 2]),
         some (.vMap [("m", .vInt 2)])]).1 = .err500 ∧
    (lambda_handler initMatcher
        [some (.vMap [("k", .vInt 1)]), some (.vList [.vInt 1, .vInt 2]),
         some (.vMap [("m", .vInt 2)])]).2.documents =
      [.vMap [("k", .vInt 1)], .vList [.vInt 1, .vInt 2]] ∧
    statusCode .err500 = some 500 ∧
    lambda_handler initMatcher [none, some (.vMap [("m", .vInt 2)])] =
      (.unhandled, initMatcher) ∧
    statusCode .unhandled = none :=
  ⟨rfl, rfl, rfl, rfl, rfl⟩

/-- C2 witness: the spec's positive example extracted through the
characterisation. -/
theorem direct_match_correct_witness :
    ∃ ids, direct_match [("s1", [("a", .vStr "x"), ("b", .vStr "y")])]
        [("a", .vStr "x"), ("c", .vStr "z")] = some ids ∧ "s1" ∈ ids :=
  (direct_match_correct.1 _ _ "s1").mpr
    ⟨[("a", .vStr "x"), ("b", .vStr "y")], List.Mem.head _,
      ("a", .vStr "x"), List.Mem.head _, ("a", .vStr "x"), List.Mem.head _, by decide⟩

/-- C9 witness: a document sharing no value with the registered sample is
ingested without any direct-match seeding. -/
theorem direct_match_none_seeds_nothing_witness :
    add_document (add_sample initMatcher "S" exSampleS) exD2 =
      indirect_match
        { add_sample initMatcher "S" exSampleS with
          documents := (add_sample initMatcher "S" exSampleS).documents ++ [.vMap exD2] }
        (flatten_doc exD2) :=
  direct_match_none_seeds_nothing.2.2 (add_sample initMatcher "S" exSampleS) exD2 rfl

/-! ### Effect of one direct-match seeding step -/

/-- A key that fails the membership test has no binding. -/
theorem dictGet?_eq_none_of_not_contains {β : Type} {d : List (String × β)}
    {k : String} (hc : ¬containsKey d k = true) : dictGet? d k = none := by
  cases h : dictGet? d k with
  | none => rfl
  | some v => exact absurd (by simp [containsKey, h]) hc

/-- Appending a binding for a fresh key makes it visible. -/
theorem dictGet?_append_fresh {β : Type} {d : List (String × β)} {k : String}
    (v : β) (h : dictGet? d k = none) : dictGet? (d ++ [(k, v)]) k = some v := by
  rw [dictGet?_append, h]
  simp [dictGet?]

/-- Appending a binding for a different key changes nothing. -/
theorem dictGet?_append_other {β : Type} {d : List (String × β)} {k k' : String}
    (v : β) (h : ¬k' = k) : dictGet? (d ++ [(k, v)]) k' = dictGet? d k' := by
  rw [dictGet?_append]
  cases hd : dictGet? d k' with
  | none =>
      have h' : ¬k = k' := fun hh => h hh.symm
      simp [dictGet?, h']
  | some w => simp

/-- `directSeedOne` only touches the group of its sample id: that group
becomes the old members (`[]` if the group is new) with the document
appended unless it is already a `pyEq`-member. -/
theorem directSeedOne_matches (document : Fields) (st : DocumentMatcher)
    (sid gid : String) :
    dictGet? (directSeedOne document st sid).«matches» gid =
      if gid = sid then
        some (if pyMem (.vMap document) ((dictGet? st.«matches» sid).getD []) then
                (dictGet? st.«matches» sid).getD []
              else (dictGet? st.«matches» sid).getD [] ++ [.vMap document])
      else dictGet? st.«matches» gid := by
  by_cases hc : containsKey st.«matches» sid
  · obtain ⟨g0, hg0⟩ : ∃ g0, dictGet? st.«matches» sid = some g0 :=
      Option.isSome_iff_exists.mp hc
    by_cases hm : pyMem (.vMap document) g0
    · simp only [directSeedOne, hc, if_true, hg0, Option.getD_some, hm, if_pos rfl]
      by_cases hgid : gid = sid
      · subst hgid
        simp [hg0]
      · simp [hgid]
    · simp [directSeedOne, hc, hg0, hm, dictGet?_dictSet]
  · have hnone : dictGet? st.«matches» sid = none := dictGet?_eq_none_of_not_contains hc
    have hget : dictGet? (st.«matches» ++ [(sid, ([] : List Value))]) sid = some [] :=
      dictGet?_append_fresh _ hnone
    simp only [directSeedOne, hc, if_false, Bool.false_eq_true, hget, Option.getD_some,
      hnone, Option.getD_none]
    rw [show pyMem (.vMap document) [] = false from rfl]
    simp only [Bool.false_eq_true, if_false, dictGet?_dictSet, List.nil_append]
    by_cases hgid : gid = sid
    · simp [hgid]
    · simp only [if_neg hgid]
      exact dictGet?_append_other _ hgid

/-- `directSeedOne` writes the appended document to the matched table under
its sample id exactly when it appends, and touches no other key. -/
theorem directSeedOne_matchedTable (document : Fields) (st : DocumentMatcher)
    (sid gid : String) :
    dictGet? (directSeedOne document st sid).matchedTable gid =
      if gid = sid ∧
          pyMem (.vMap document) ((dictGet? st.«matches» sid).getD []) = false then
        some (.vMap document)
      else dictGet? st.matchedTable gid := by
  by_cases hc : containsKey st.«matches» sid
  · obtain ⟨g0, hg0⟩ : ∃ g0, dictGet? st.«matches» sid = some g0 :=
      Option.isSome_iff_exists.mp hc
    by_cases hm : pyMem (.vMap document) g0
    · simp [directSeedOne, hc, hg0, hm]
    · simp [directSeedOne, hc, hg0, hm, dictGet?_dictSet, eq_comm]
  · have hnone : dictGet? st.«matches» sid = none := dictGet?_eq_none_of_not_contains hc
    have hget : dictGet? (st.«matches» ++ [(sid, ([] : List Value))]) sid = some [] :=
      dictGet?_append_fresh _ hnone
    simp only [directSeedOne, hc, if_false, Bool.false_eq_true, hget, Option.getD_some,
      hnone, Option.getD_none]
    rw [show pyMem (.vMap document) [] = false from rfl]
    simp [dictGet?_dictSet]

/-- `directSeedOne` leaves the history, the registry, and the sample table
alone. -/
theorem directSeedOne_rest (document : Fields) (st : DocumentMatcher) (sid : String) :
    (directSeedOne document st sid).documents = st.documents ∧
    (directSeedOne document st sid).samples = st.samples ∧
    (directSeedOne document st sid).sampleTable = st.sampleTable := by
  unfold directSeedOne
  by_cases hc : containsKey st.«matches» sid <;>
    simp only [hc, if_true, if_false, Bool.false_eq_true] <;>
    (try split) <;> simp

/-- The key list after `directSeedOne`: unchanged when the group exists,
extended by the sample id otherwise. -/
theorem directSeedOne_keys (document : Fields) (st : DocumentMatcher) (sid : String) :
    (directSeedOne document st sid).«matches».map Prod.fst =
      if containsKey st.«matches» sid then st.«matches».map Prod.fst
      else st.«matches».map Prod.fst ++ [sid] := by
  by_cases hc : containsKey st.«matches» sid
  · obtain ⟨g0, hg0⟩ : ∃ g0, dictGet? st.«matches» sid = some g0 :=
      Option.isSome_iff_exists.mp hc
    by_cases hm : pyMem (.vMap document) g0
    · simp [directSeedOne, hc, hg0, hm]
    · simp only [directSeedOne, hc, if_true, hg0, Option.getD_some, hm,
        Bool.false_eq_true, if_false, if_pos rfl]
      rw [keys_dictSet_of_contains _ hc]
  · have hnone : dictGet? st.«matches» sid = none := dictGet?_eq_none_of_not_contains hc
    have hget : dictGet? (st.«matches» ++ [(sid, ([] : List Value))]) sid = some [] :=
      dictGet?_append_fresh _ hnone
    have hc' : containsKey (st.«matches» ++ [(sid, ([] : List Value))]) sid = true := by
      simp [containsKey, hget]
    simp only [directSeedOne, hc, if_false, Bool.false_eq_true, hget, Option.getD_some]
    rw [show pyMem (.vMap document) [] = false from rfl]
    simp only [Bool.false_eq_true, if_false]
    rw [keys_dictSet_of_contains _ hc']
    simp [hc]

/-! ### Effect of one rescan step -/

/-- The rescan step transforms every group entrywise: append the scanned
document where `shouldAppend` holds. -/
theorem indirectDocStep_matches (st : DocumentMatcher) (doc : Value) (gid : String) :
    dictGet? (indirectDocStep st doc).«matches» gid =
      (dictGet? st.«matches» gid).map
        (fun g => if shouldAppend doc g then g ++ [doc] else g) := by
  show dictGet? (st.«matches».map fun e =>
      if shouldAppend doc e.2 then (e.1, e.2 ++ [doc]) else e) gid = _
  induction st.«matches» with
  | nil => simp [dictGet?]
  | cons e rest ih =>
      obtain ⟨a, g⟩ := e
      simp only [List.map_cons]
      by_cases hsa : shouldAppend doc g = true
      · rw [if_pos hsa]
        by_cases hgid : a = gid
        · subst hgid
          simp [dictGet?, hsa]
        · simp [dictGet?, hgid, ih]
      · rw [if_neg hsa]
        have hsa' : shouldAppend doc g = false := Bool.not_eq_true _ ▸ eq_false_of_ne_true hsa
        by_cases hgid : a = gid
        · subst hgid
          simp [dictGet?, hsa']
        · simp [dictGet?, hgid, ih]

/-- The rescan step does not touch the history, the registry, the sample
table, or the group key list. -/
theorem indirectDocStep_rest (st : DocumentMatcher) (doc : Value) :
    (indirectDocStep st doc).documents = st.documents ∧
    (indirectDocStep st doc).samples = st.samples ∧
    (indirectDocStep st doc).sampleTable = st.sampleTable ∧
    (indirectDocStep st doc).«matches».map Prod.fst = st.«matches».map Prod.fst := by
  refine ⟨rfl, rfl, rfl, ?_⟩
  show (st.«matches».map fun e =>
      if shouldAppend doc e.2 then (e.1, e.2 ++ [doc]) else e).map Prod.fst = _
  rw [List.map_map]
  apply List.map_congr_left
  intro e he
  by_cases hsa : shouldAppend doc e.2 <;> simp [hsa]

/-- The matched-table writes of one rescan step, seen through lookups:
under duplicate-free group keys, the key of every group that receives the
document now maps to it, and every other key is untouched. -/
theorem foldPuts_lookup (doc : Value) :
    ∀ (ms : List (String × List Value)) (t0 : List (String × Value)) (gid : String),
      (ms.map Prod.fst).Nodup →
      dictGet? (((ms.filter (fun e => shouldAppend doc e.2)).map
            (fun e => (e.1, doc))).foldl (fun t p => dictSet t p.1 p.2) t0) gid =
        match dictGet? ms gid with
        | some g => if shouldAppend doc g then some doc else dictGet? t0 gid
        | none => dictGet? t0 gid := by
  intro ms
  induction ms with
  | nil =>
      intro t0 gid _
      simp [dictGet?]
  | cons e rest ih =>
      intro t0 gid hnd
      obtain ⟨a, g⟩ := e
      rw [List.map_cons, List.nodup_cons] at hnd
      obtain ⟨ha, hnd'⟩ := hnd
      by_cases hsa : shouldAppend doc g
      · rw [show ((a, g) :: rest).filter (fun e => shouldAppend doc e.2) =
            (a, g) :: rest.filter (fun e => shouldAppend doc e.2) by simp [hsa]]
        rw [List.map_cons, List.foldl_cons, ih (dictSet t0 a doc) gid hnd']
        by_cases hgid : a = gid
        · subst hgid
          have hrest : dictGet? rest a = none := by
            rw [dictGet?_eq_none_iff]
            exact ha
          simp [dictGet?, hrest, hsa, dictGet?_dictSet]
        · have h' : ¬gid = a := fun hh => hgid hh.symm
          simp only [dictGet?, if_neg hgid, dictGet?_dictSet, if_neg h']
      · rw [show ((a, g) :: rest).filter (fun e => shouldAppend doc e.2) =
            rest.filter (fun e => shouldAppend doc e.2) by simp [hsa]]
        rw [ih t0 gid hnd']
        by_cases hgid : a = gid
        · subst hgid
          have hrest : dictGet? rest a = none := by
            rw [dictGet?_eq_none_iff]
            exact ha
          simp [dictGet?, hrest, hsa]
        · simp only [dictGet?, if_neg hgid]

/-- Matched-table lookups after one rescan step. -/
theorem indirectDocStep_matchedTable (st : DocumentMatcher) (doc : Value)
    (hnd : (st.«matches».map Prod.fst).Nodup) (gid : String) :
    dictGet? (indirectDocStep st doc).matchedTable gid =
      match dictGet? st.«matches» gid with
      | some g => if shouldAppend doc g then some doc else dictGet? st.matchedTable gid
      | none => dictGet? st.matchedTable gid :=
  foldPuts_lookup doc st.«matches» st.matchedTable gid hnd

/-! ### The rescan as a whole -/

/-- A full rescan changes neither the history, nor the registry, nor the
sample table, nor the group key list. -/
theorem indirect_foldl_rest (l : List Value) : ∀ st : DocumentMatcher,
    (l.foldl indirectDocStep st).documents = st.documents ∧
    (l.foldl indirectDocStep st).samples = st.samples ∧
    (l.foldl indirectDocStep st).sampleTable = st.sampleTable ∧
    (l.foldl indirectDocStep st).«matches».map Prod.fst = st.«matches».map Prod.fst := by
  induction l with
  | nil => exact fun st => ⟨rfl, rfl, rfl, rfl⟩
  | cons x l ih =>
      intro st
      obtain ⟨h1, h2, h3, h4⟩ := ih (indirectDocStep st x)
      obtain ⟨g1, g2, g3, g4⟩ := indirectDocStep_rest st x
      exact ⟨h1.trans g1, h2.trans g2, h3.trans g3, h4.trans g4⟩

/-- Scanning the documents of `l` one by one only ever extends a group at
its end, with documents drawn from `l` that were not already members. -/
theorem indirect_fold_lookup (l : List Value) :
    ∀ (st : DocumentMatcher) (gid : String) (g : List Value),
      dictGet? st.«matches» gid = some g →
      ∃ g', dictGet? (l.foldl indirectDocStep st).«matches» gid = some g' ∧
        g <+: g' ∧ ∀ d ∈ g', d ∈ g ∨ (d ∈ l ∧ pyMem d g = false) := by
  induction l with
  | nil =>
      intro st gid g h
      exact ⟨g, h, List.prefix_rfl, fun d hd => .inl hd⟩
  | cons x l ih =>
      intro st gid g h
      have hstep : dictGet? (indirectDocStep st x).«matches» gid =
          some (if shouldAppend x g then g ++ [x] else g) := by
        rw [indirectDocStep_matches, h]
        rfl
      by_cases hsa : shouldAppend x g = true
      · rw [if_pos hsa] at hstep
        obtain ⟨g', hg', hpre, hmem⟩ := ih (indirectDocStep st x) gid (g ++ [x]) hstep
        have hx : pyMem x g = false := by
          simp only [shouldAppend, Bool.and_eq_true, Bool.not_eq_true'] at hsa
          exact hsa.2
        refine ⟨g', hg', (List.prefix_append g [x]).trans hpre, ?_⟩
        intro d hd
        rcases hmem d hd with hdg | ⟨hdl, hdpm⟩
        · rcases List.mem_append.mp hdg with h1 | h1
          · exact .inl h1
          · rw [List.mem_singleton] at h1
            subst h1
            exact .inr ⟨List.mem_cons_self _ _, hx⟩
        · exact .inr ⟨List.mem_cons_of_mem _ hdl,
            pyMem_eq_false_of_prefix (List.prefix_append g [x]) hdpm⟩
      · rw [if_neg hsa] at hstep
        obtain ⟨g', hg', hpre, hmem⟩ := ih (indirectDocStep st x) gid g hstep
        refine ⟨g', hg', hpre, ?_⟩
        intro d hd
        rcases hmem d hd with hdg | ⟨hdl, hdpm⟩
        · exact .inl hdg
        · exact .inr ⟨List.mem_cons_of_mem _ hdl, hdpm⟩

/-- C3.  End-to-end: in the spec's transitivity scenario — sample `"S"`
`{"v": 1234}`, then `D1={"k1":1234,"k2":"abc"}` (seeded into group `"S"` by
direct match), then `D2={"k1":"abc","k3":"xyz"}` — `D2` joins group `"S"`
during the rescan triggered by its own `add_document` call, with both
memberships persisted, in order.  In general, a rescan leaves the history
unchanged and only extends a group at its end, each appended document
coming from the full history and not having been a `pyEq`-member (equal
pairs are skipped) when it was appended. -/
theorem indirect_match_correct :
    ((runOps initMatcher scenarioOps).«matches» = [("S", [.vMap exD1, .vMap exD2])] ∧
     (runOps initMatcher scenarioOps).log =
       [.putSample "S" exSampleS, .putMatched "S" (.vMap exD1),
        .putMatched "S" (.vMap exD2)]) ∧
    ∀ (st : DocumentMatcher) (new_doc : Fields),
      (indirect_match st new_doc).documents = st.documents ∧
      ∀ gid g, dictGet? st.«matches» gid = some g →
        ∃ g', dictGet? (indirect_match st new_doc).«matches» gid = some g' ∧
          g <+: g' ∧ ∀ d ∈ g', d ∈ g ∨ (d ∈ st.documents ∧ pyMem d g = false) := by
  refine ⟨⟨rfl, rfl⟩, fun st nd => ⟨(indirect_foldl_rest st.documents st).1, ?_⟩⟩
  exact fun gid g h => indirect_fold_lookup st.documents st gid g h

/-- C3 witness: the general clause applied to the state holding `D1` in
group `"S"`. -/
theorem indirect_match_correct_witness :
    ∃ g', dictGet? (indirect_match
        (runOps initMatcher [.addSample "S" exSampleS, .addDoc exD1]) []).«matches»
        "S" = some g' ∧
      [Value.vMap exD1] <+: g' ∧
      ∀ d ∈ g', d ∈ [Value.vMap exD1] ∨
        (d ∈ (runOps initMatcher [.addSample "S" exSampleS, .addDoc exD1]).documents ∧
          pyMem d [Value.vMap exD1] = false) :=
  (indirect_match_correct.2
    (runOps initMatcher [.addSample "S" exSampleS, .addDoc exD1]) []).2
    "S" [Value.vMap exD1] rfl

/-! ### Monotonicity -/

/-- `add_document` written without its intermediate `let`s. -/
theorem add_document_eq (st : DocumentMatcher) (document : Fields) :
    add_document st document =
      indirect_match
        (match direct_match st.samples (flatten_doc document) with
         | none => { st with documents := st.documents ++ [Value.vMap document] }
         | some ids => ids.foldl (directSeedOne document)
             { st with documents := st.documents ++ [Value.vMap document] })
        (flatten_doc document) := rfl

/-- The seeding loop changes neither the history, nor the registry, nor the
sample table. -/
theorem seedFold_rest (document : Fields) (ids : List String) :
    ∀ st : DocumentMatcher,
      (ids.foldl (directSeedOne document) st).documents = st.documents ∧
      (ids.foldl (directSeedOne document) st).samples = st.samples ∧
      (ids.foldl (directSeedOne document) st).sampleTable = st.sampleTable := by
  induction ids with
  | nil => exact fun st => ⟨rfl, rfl, rfl⟩
  | cons i ids ih =>
      intro st
      obtain ⟨h1, h2, h3⟩ := ih (directSeedOne document st i)
      obtain ⟨g1, g2, g3⟩ := directSeedOne_rest document st i
      exact ⟨h1.trans g1, h2.trans g2, h3.trans g3⟩

/-- One seeding step only ever extends a group at its end. -/
theorem directSeedOne_mono (document : Fields) (st : DocumentMatcher)
    (sid gid : String) (g : List Value) (h : dictGet? st.«matches» gid = some g) :
    ∃ g', dictGet? (directSeedOne document st sid).«matches» gid = some g' ∧
      g <+: g' := by
  rw [directSeedOne_matches]
  by_cases hgid : gid = sid
  · subst hgid
    simp only [if_pos rfl, h, Option.getD_some]
    by_cases hm : pyMem (.vMap document) g = true
    · exact ⟨g, by simp [hm], List.prefix_rfl⟩
    · exact ⟨g ++ [.vMap document], by simp [hm], List.prefix_append _ _⟩
  · exact ⟨g, by rw [if_neg hgid]; exact h, List.prefix_rfl⟩

/-- The seeding loop only ever extends a group at its end. -/
theorem seedFold_mono (document : Fields) (ids : List String) :
    ∀ (st : DocumentMatcher) (gid : String) (g : List Value),
      dictGet? st.«matches» gid = some g →
      ∃ g', dictGet? (ids.foldl (directSeedOne document) st).«matches» gid = some g' ∧
        g <+: g' := by
  induction ids with
  | nil => exact fun st gid g h => ⟨g, h, List.prefix_rfl⟩
  | cons i ids ih =>
      intro st gid g h
      obtain ⟨g1, hg1, hp1⟩ := directSeedOne_mono document st i gid g h
      obtain ⟨g', hg', hp'⟩ := ih (directSeedOne document st i) gid g1 hg1
      exact ⟨g', hg', hp1.trans hp'⟩

/-- `add_document` appends exactly its document to the history and leaves
the registry unchanged. -/
theorem add_document_rest (st : DocumentMatcher) (document : Fields) :
    (add_document st document).documents = st.documents ++ [.vMap document] ∧
    (add_document st document).samples = st.samples := by
  rw [add_document_eq]
  cases hdm : direct_match st.samples (flatten_doc document) with
  | none =>
      obtain ⟨h1, h2, -, -⟩ := indirect_foldl_rest
        ({ st with documents := st.documents ++ [Value.vMap document] } :
          DocumentMatcher).documents
        { st with documents := st.documents ++ [Value.vMap document] }
      exact ⟨h1, h2⟩
  | some ids =>
      set st1 : DocumentMatcher :=
        { st with documents := st.documents ++ [Value.vMap document] } with hst1
      set st2 := ids.foldl (directSeedOne document) st1 with hst2
      obtain ⟨s1, s2, -⟩ := seedFold_rest document ids st1
      obtain ⟨h1, h2, -, -⟩ := indirect_foldl_rest st2.documents st2
      rw [indirect_match] at *
      exact ⟨h1.trans (s1.trans rfl), h2.trans (s2.trans rfl)⟩

/-- One operation never removes or reorders history entries, never shrinks
the registry, and only ever extends match groups at their end. -/
theorem runOp_mono (st : DocumentMatcher) (op : Op) :
    st.documents <+: (runOp st op).documents ∧
    st.samples.length ≤ (runOp st op).samples.length ∧
    ∀ gid g, dictGet? st.«matches» gid = some g →
      ∃ g', dictGet? (runOp st op).«matches» gid = some g' ∧ g <+: g' := by
  cases op with
  | addSample i d =>
      exact ⟨List.prefix_rfl, length_le_dictSet _ _ _,
        fun gid g h => ⟨g, h, List.prefix_rfl⟩⟩
  | addDoc d =>
      simp only [runOp]
      refine ⟨?_, ?_, ?_⟩
      · rw [(add_document_rest st d).1]
        exact List.prefix_append _ _
      · rw [(add_document_rest st d).2]
      · intro gid g h
        rw [add_document_eq]
        cases hdm : direct_match st.samples (flatten_doc d) with
        | none =>
            obtain ⟨g', hg', hp', -⟩ := indirect_fold_lookup
              ({ st with documents := st.documents ++ [Value.vMap d] } :
                DocumentMatcher).documents
              { st with documents := st.documents ++ [Value.vMap d] } gid g h
            exact ⟨g', hg', hp'⟩
        | some ids =>
            obtain ⟨g1, hg1, hp1⟩ := seedFold_mono d ids
              { st with documents := st.documents ++ [Value.vMap d] } gid g h
            obtain ⟨g', hg', hp', -⟩ := indirect_fold_lookup _ _ gid g1 hg1
            exact ⟨g', hg', hp1.trans hp'⟩

/-- C7.  Across any sequence of operations the history only grows at its
end (no removal, no reordering), the registry never shrinks, and every
match group only gains members, also at its end. -/
theorem matcher_state_monotone :
    ∀ (st : DocumentMatcher) (ops : List Op),
      st.documents <+: (runOps st ops).documents ∧
      st.samples.length ≤ (runOps st ops).samples.length ∧
      ∀ gid g, dictGet? st.«matches» gid = some g →
        ∃ g', dictGet? (runOps st ops).«matches» gid = some g' ∧ g <+: g' := by
  intro st ops
  induction ops generalizing st with
  | nil => exact ⟨List.prefix_rfl, le_rfl, fun gid g h => ⟨g, h, List.prefix_rfl⟩⟩
  | cons op ops ih =>
      obtain ⟨h1, h2, h3⟩ := runOp_mono st op
      obtain ⟨k1, k2, k3⟩ := ih (runOp st op)
      refine ⟨h1.trans k1, h2.trans k2, ?_⟩
      intro gid g h
      obtain ⟨g1, hg1, hp1⟩ := h3 gid g h
      obtain ⟨g', hg', hp'⟩ := k3 gid g1 hg1
      exact ⟨g', hg', hp1.trans hp'⟩

/-- C7 witness: the group holding `D1` persists, as a prefix, through the
ingestion of `D2`. -/
theorem matcher_state_monotone_witness :
    ∃ g', dictGet? (runOps (runOps initMatcher
        [Op.addSample "S" exSampleS, Op.addDoc exD1]) [Op.addDoc exD2]).«matches»
        "S" = some g' ∧ [Value.vMap exD1] <+: g' :=
  (matcher_state_monotone (runOps initMatcher
    [Op.addSample "S" exSampleS, Op.addDoc exD1]) [Op.addDoc exD2]).2.2
    "S" [Value.vMap exD1] rfl

/-! ### The matcher invariant -/

/-- `pyMem` failure, pointwise. -/
theorem pyMem_eq_false_iff {x : Value} {l : List Value} :
    pyMem x l = false ↔ ∀ m ∈ l, pyEq m x = false := by
  simp [pyMem, List.any_eq_false]

/-- The invariant maintained by every matcher operation: group keys are
duplicate-free, the persisted record of a group is its most recently
appended member, no member of a group is `pyEq`-equal to a later member,
and every member comes from the document history. -/
def MatcherInv (st : DocumentMatcher) : Prop :=
  (st.«matches».map Prod.fst).Nodup ∧
  (∀ gid g, dictGet? st.«matches» gid = some g →
      dictGet? st.matchedTable gid = g.getLast?) ∧
  (∀ gid g, dictGet? st.«matches» gid = some g →
      g.Pairwise (fun a b => pyEq a b = false)) ∧
  (∀ gid g, dictGet? st.«matches» gid = some g → ∀ m ∈ g, m ∈ st.documents)

/-- The fresh matcher satisfies the invariant. -/
theorem matcherInv_init : MatcherInv initMatcher := by
  refine ⟨List.nodup_nil, ?_, ?_, ?_⟩ <;> intro gid g h <;> simp [initMatcher, dictGet?] at h

/-- `add_sample` touches none of the data the invariant speaks about. -/
theorem matcherInv_add_sample (st : DocumentMatcher) (i : String) (d : Fields)
    (h : MatcherInv st) : MatcherInv (add_sample st i d) := h

/-- Appending a non-member at the end preserves pairwise distinctness. -/
theorem pairwise_concat_of_not_pyMem {g : List Value} {x : Value}
    (hp : g.Pairwise (fun a b => pyEq a b = false)) (hm : pyMem x g = false) :
    (g ++ [x]).Pairwise (fun a b => pyEq a b = false) := by
  rw [List.pairwise_append]
  refine ⟨hp, List.pairwise_singleton _ _, ?_⟩
  intro a ha b hb
  rw [List.mem_singleton] at hb
  subst hb
  exact pyMem_eq_false_iff.mp hm a ha

/-- One seeding step preserves the invariant, provided the seeded document
is already in the history. -/
theorem matcherInv_directSeedOne (document : Fields) (st : DocumentMatcher)
    (sid : String) (hdoc : Value.vMap document ∈ st.documents)
    (h : MatcherInv st) : MatcherInv (directSeedOne document st sid) := by
  obtain ⟨hnd, htab, hpw, hmem⟩ := h
  obtain ⟨hdocs, -, -⟩ := directSeedOne_rest document st sid
  refine ⟨?_, ?_, ?_, ?_⟩
  · rw [directSeedOne_keys]
    by_cases hc : containsKey st.«matches» sid
    · simpa [hc] using hnd
    · have : sid ∉ st.«matches».map Prod.fst := by
        rw [← dictGet?_eq_none_iff]
        exact dictGet?_eq_none_of_not_contains hc
      simp [hc, List.nodup_append, hnd, this]
  · intro gid g hg
    rw [directSeedOne_matches] at hg
    rw [directSeedOne_matchedTable]
    by_cases hgid : gid = sid
    · subst hgid
      rw [if_pos rfl] at hg
      cases hold : dictGet? st.«matches» gid with
      | none =>
          rw [hold] at hg
          simp only [Option.getD_none, Option.some.injEq] at hg
          rw [show pyMem (Value.vMap document) [] = false from rfl] at hg
          simp only [Bool.false_eq_true, if_false] at hg
          subst hg
          simp [hold, pyMem]
      | some g0 =>
          rw [hold] at hg
          simp only [Option.getD_some, Option.some.injEq] at hg
          by_cases hm : pyMem (Value.vMap document) g0 = true
          · rw [if_pos hm] at hg
            subst hg
            simp only [hold, Option.getD_some, hm]
            rw [if_neg (by simp)]
            exact htab gid g0 hold
          · rw [if_neg hm] at hg
            subst hg
            rw [Bool.not_eq_true] at hm
            simp [hold, hm, List.getLast?_concat]
    · rw [if_neg hgid] at hg
      rw [if_neg (fun hh => hgid hh.1)]
      exact htab gid g hg
  · intro gid g hg
    rw [directSeedOne_matches] at hg
    by_cases hgid : gid = sid
    · subst hgid
      rw [if_pos rfl] at hg
      cases hold : dictGet? st.«matches» gid with
      | none =>
          rw [hold] at hg
          simp only [Option.getD_none, Option.some.injEq] at hg
          rw [show pyMem (Value.vMap document) [] = false from rfl] at hg
          simp only [Bool.false_eq_true, if_false] at hg
          subst hg
          exact List.pairwise_singleton _ _
      | some g0 =>
          rw [hold] at hg
          simp only [Option.getD_some, Option.some.injEq] at hg
          by_cases hm : pyMem (Value.vMap document) g0 = true
          · rw [if_pos hm] at hg
            subst hg
            exact hpw gid g0 hold
          · rw [if_neg hm] at hg
            subst hg
            rw [Bool.not_eq_true] at hm
            exact pairwise_concat_of_not_pyMem (hpw gid g0 hold) hm
    · rw [if_neg hgid] at hg
      exact hpw gid g hg
  · intro gid g hg m hm
    rw [hdocs]
    rw [directSeedOne_matches] at hg
    by_cases hgid : gid = sid
    · subst hgid
      rw [if_pos rfl] at hg
      cases hold : dictGet? st.«matches» gid with
      | none =>
          rw [hold] at hg
          simp only [Option.getD_none, Option.some.injEq] at hg
          rw [show pyMem (Value.vMap document) [] = false from rfl] at hg
          simp only [Bool.false_eq_true, if_false] at hg
          subst hg
          simp only [List.nil_append, List.mem_singleton] at hm
          subst hm
          exact hdoc
      | some g0 =>
          rw [hold] at hg
          simp only [Option.getD_some, Option.some.injEq] at hg
          by_cases hmm : pyMem (Value.vMap document) g0 = true
          · rw [if_pos hmm] at hg
            subst hg
            exact hmem gid g0 hold m hm
          · rw [if_neg hmm] at hg
            subst hg
            rcases List.mem_append.mp hm with h1 | h1
            · exact hmem gid g0 hold m h1
            · rw [List.mem_singleton] at h1
              subst h1
              exact hdoc
    · rw [if_neg hgid] at hg
      exact hmem gid g hg m hm

/-- The seeding loop preserves the invariant. -/
theorem matcherInv_seedFold (document : Fields) (ids : List String) :
    ∀ st : DocumentMatcher, Value.vMap document ∈ st.documents →
      MatcherInv st → MatcherInv (ids.foldl (directSeedOne document) st) := by
  induction ids with
  | nil => exact fun st _ h => h
  | cons i ids ih =>
      intro st hdoc h
      have hdoc' : Value.vMap document ∈ (directSeedOne document st i).documents := by
        rw [(directSeedOne_rest document st i).1]
        exact hdoc
      exact ih (directSeedOne document st i) hdoc'
        (matcherInv_directSeedOne document st i hdoc h)

/-- One rescan step preserves the invariant, provided the scanned document
is in the history. -/
theorem matcherInv_indirectDocStep (st : DocumentMatcher) (doc : Value)
    (hdoc : doc ∈ st.documents) (h : MatcherInv st) :
    MatcherInv (indirectDocStep st doc) := by
  obtain ⟨hnd, htab, hpw, hmem⟩ := h
  obtain ⟨hdocs, -, -, hkeys⟩ := indirectDocStep_rest st doc
  refine ⟨by rw [hkeys]; exact hnd, ?_, ?_, ?_⟩
  · intro gid g hg
    rw [indirectDocStep_matches] at hg
    rw [indirectDocStep_matchedTable st doc hnd]
    cases hold : dictGet? st.«matches» gid with
    | none => rw [hold] at hg; simp at hg
    | some g0 =>
        rw [hold] at hg
        simp only [Option.map_some'] at hg
        rw [Option.some.injEq] at hg
        by_cases hsa : shouldAppend doc g0 = true
        · rw [if_pos hsa] at hg
          subst hg
          simp [hsa, List.getLast?_concat]
        · rw [if_neg hsa] at hg
          subst hg
          show (if shouldAppend doc g0 = true then some doc
            else dictGet? st.matchedTable gid) = g0.getLast?
          rw [if_neg hsa]
          exact htab gid g0 hold
  · intro gid g hg
    rw [indirectDocStep_matches] at hg
    cases hold : dictGet? st.«matches» gid with
    | none => rw [hold] at hg; simp at hg
    | some g0 =>
        rw [hold] at hg
        simp only [Option.map_some'] at hg
        rw [Option.some.injEq] at hg
        by_cases hsa : shouldAppend doc g0 = true
        · rw [if_pos hsa] at hg
          subst hg
          have hpm : pyMem doc g0 = false := by
            simp only [shouldAppend, Bool.and_eq_true, Bool.not_eq_true'] at hsa
            exact hsa.2
          exact pairwise_concat_of_not_pyMem (hpw gid g0 hold) hpm
        · rw [if_neg hsa] at hg
          subst hg
          exact hpw gid g0 hold
  · intro gid g hg m hm
    rw [hdocs]
    rw [indirectDocStep_matches] at hg
    cases hold : dictGet? st.«matches» gid with
    | none => rw [hold] at hg; simp at hg
    | some g0 =>
        rw [hold] at hg
        simp only [Option.map_some'] at hg
        rw [Option.some.injEq] at hg
        by_cases hsa : shouldAppend doc g0 = true
        · rw [if_pos hsa] at hg
          subst hg
          rcases List.mem_append.mp hm with h1 | h1
          · exact hmem gid g0 hold m h1
          · rw [List.mem_singleton] at h1
            subst h1
            exact hdoc
        · rw [if_neg hsa] at hg
          subst hg
          exact hmem gid g0 hold m hm

/-- A full rescan preserves the invariant when every scanned document is in
the history. -/
theorem matcherInv_indirectFold (l : List Value) :
    ∀ st : DocumentMatcher, (∀ d ∈ l, d ∈ st.documents) →
      MatcherInv st → MatcherInv (l.foldl indirectDocStep st) := by
  induction l with
  | nil => exact fun st _ h => h
  | cons x l ih =>
      intro st hl h
      have hx : x ∈ st.documents := hl x (List.mem_cons_self _ _)
      have hl' : ∀ d ∈ l, d ∈ (indirectDocStep st x).documents := by
        intro d hd
        rw [(indirectDocStep_rest st x).1]
        exact hl d (List.mem_cons_of_mem _ hd)
      exact ih (indirectDocStep st x) hl' (matcherInv_indirectDocStep st x hx h)

/-- `add_document` preserves the invariant. -/
theorem matcherInv_add_document (st : DocumentMatcher) (document : Fields)
    (h : MatcherInv st) : MatcherInv (add_document st document) := by
  rw [add_document_eq]
  set st1 : DocumentMatcher :=
    { st with documents := st.documents ++ [Value.vMap document] } with hst1
  have h1 : MatcherInv st1 := by
    obtain ⟨hnd, htab, hpw, hmem⟩ := h
    exact ⟨hnd, htab, hpw,
      fun gid g hg m hm => List.mem_append_left _ (hmem gid g hg m hm)⟩
  have hdoc1 : Value.vMap document ∈ st1.documents :=
    List.mem_append_right _ (List.mem_singleton.mpr rfl)
  cases hdm : direct_match st.samples (flatten_doc document) with
  | none =>
      exact matcherInv_indirectFold st1.documents st1 (fun d hd => hd) h1
  | some ids =>
      set st2 := ids.foldl (directSeedOne document) st1 with hst2
      have h2 : MatcherInv st2 := matcherInv_seedFold document ids st1 hdoc1 h1
      exact matcherInv_indirectFold st2.documents st2 (fun d hd => hd) h2

/-- Every reachable state satisfies the invariant. -/
theorem matcherInv_runOps (ops : List Op) :
    ∀ st : DocumentMatcher, MatcherInv st → MatcherInv (runOps st ops) := by
  induction ops with
  | nil => exact fun st h => h
  | cons op ops ih =>
      intro st h
      refine ih (runOp st op) ?_
      cases op with
      | addSample i d => exact matcherInv_add_sample st i d h
      | addDoc d => exact matcherInv_add_document st d h

/-- C6 counterexample: two reachable states whose group `"S"` has different
member lists carry the same persisted record, which holds only the single
most recently appended document — the persisted record does not mirror the
full in-memory member list, and no update-if-exists-else-create pattern is
involved. -/
theorem persisted_record_not_member_list :
    dictGet? (runOps initMatcher scenarioOps).«matches» "S" =
      some [.vMap exD1, .vMap exD2] ∧
    dictGet? (runOps initMatcher scenarioOps).matchedTable "S" =
      some (.vMap exD2) ∧
    dictGet? (runOps initMatcher scenarioOpsB).«matches» "S" = some [.vMap exD2] ∧
    dictGet? (runOps initMatcher scenarioOpsB).matchedTable "S" =
      some (.vMap exD2) ∧
    pyEq (.vMap exD2) (.vMap exD1) = false :=
  ⟨rfl, rfl, rfl, rfl, by decide⟩

/-- C6 as amended.  After any sequence of operations, the persisted record
of every group is an unconditional `put_item` image holding exactly the
group's most recently appended member — not its full member list. -/
theorem persisted_record_last_member :
    ∀ (ops : List Op) (gid : String) (g : List Value),
      dictGet? (runOps initMatcher ops).«matches» gid = some g →
      dictGet? (runOps initMatcher ops).matchedTable gid = g.getLast? :=
  fun ops gid g h =>
    (matcherInv_runOps ops initMatcher matcherInv_init).2.1 gid g h

/-- C6 witness: in the transitivity scenario the persisted record for `"S"`
is the last member `D2`. -/
theorem persisted_record_last_member_witness :
    dictGet? (runOps initMatcher scenarioOps).matchedTable "S" =
      [Value.vMap exD1, Value.vMap exD2].getLast? :=
  persisted_record_last_member scenarioOps "S" [Value.vMap exD1, Value.vMap exD2] rfl

/-! ### Well-formed values and symmetry of `pyEq`

Every value representable as a Python object has duplicate-free keys in
every mapping it contains; on such values `pyEq` is symmetric. -/

/-- Duplicate-free key list. -/
def nodupKeysB : List (String × Value) → Bool
  | [] => true
  | (k, _) :: rest => !containsKey rest k && nodupKeysB rest

mutual

/-- Every mapping nested anywhere inside the value has duplicate-free
keys — true of every value `json.loads` can produce. -/
def wfV : Value → Bool
  | .vStr _ => true
  | .vInt _ => true
  | .vList l => wfVList l
  | .vMap m => nodupKeysB m && wfVFields m
termination_by structural v => v

/-- `wfV` on every element. -/
def wfVList : List Value → Bool
  | [] => true
  | x :: xs => wfV x && wfVList xs
termination_by structural l => l

/-- `wfV` on every entry's value. -/
def wfVFields : List (String × Value) → Bool
  | [] => true
  | (_, v) :: rest => wfV v && wfVFields rest
termination_by structural a => a

end

/-- Scanning keys with `==` is the membership test. -/
theorem any_keyEq (b : List (String × Value)) (k : String) :
    (b.any fun q => q.1 == k) = containsKey b k := by
  induction b with
  | nil => simp [containsKey, dictGet?]
  | cons q rest ih =>
      obtain ⟨a, v⟩ := q
      by_cases h : a = k <;> simp [containsKey, dictGet?, h, ih]

/-- `keysIncl`, pointwise. -/
theorem keysIncl_iff {a b : List (String × Value)} :
    keysIncl a b = true ↔ ∀ p ∈ a, containsKey b p.1 = true := by
  simp only [keysIncl, List.all_eq_true]
  constructor
  · intro h p hp
    rw [← any_keyEq b p.1]
    exact h p hp
  · intro h p hp
    rw [any_keyEq b p.1]
    exact h p hp

/-- An entry's key is found by the membership test. -/
theorem containsKey_of_mem {d : List (String × Value)} {k : String} {v : Value}
    (h : (k, v) ∈ d) : containsKey d k = true := by
  induction d with
  | nil => simp at h
  | cons e rest ih =>
      obtain ⟨a, w⟩ := e
      by_cases hak : a = k
      · simp [containsKey, dictGet?, hak]
      · rcases List.mem_cons.mp h with h1 | h1
        · exact absurd (congrArg Prod.fst h1).symm hak
        · simp [containsKey, dictGet?, hak]
          have := ih h1
          simpa [containsKey] using this

/-- In a duplicate-free dict, any entry is found by lookup. -/
theorem dictGet?_of_mem_nodup {d : List (String × Value)} {k : String} {v : Value}
    (hnd : nodupKeysB d = true) (h : (k, v) ∈ d) : dictGet? d k = some v := by
  induction d with
  | nil => simp at h
  | cons e rest ih =>
      obtain ⟨a, w⟩ := e
      simp only [nodupKeysB, Bool.and_eq_true, Bool.not_eq_true'] at hnd
      rcases List.mem_cons.mp h with h1 | h1
      · rw [Prod.mk.injEq] at h1
        obtain ⟨rfl, rfl⟩ := h1
        simp [dictGet?]
      · by_cases hak : a = k
        · subst hak
          exact absurd (containsKey_of_mem h1) (by simp [hnd.1])
        · simp only [dictGet?, if_neg hak]
          exact ih hnd.2 h1

/-- `pyEqFields`, pointwise. -/
theorem pyEqFields_true_iff {a b : List (String × Value)} :
    pyEqFields a b = true ↔
      ∀ p ∈ a, ∃ w, dictGet? b p.1 = some w ∧ pyEq p.2 w = true := by
  induction a with
  | nil => simp [pyEqFields]
  | cons e rest ih =>
      obtain ⟨k, v⟩ := e
      simp only [pyEqFields, Bool.and_eq_true, ih, List.mem_cons]
      cases hbk : dictGet? b k with
      | none =>
          simp only [hbk]
          constructor
          · rintro ⟨h1, -⟩
            exact absurd h1 (by simp)
          · intro h
            obtain ⟨w, hw, -⟩ := h (k, v) (Or.inl rfl)
            have hw2 : dictGet? b k = some w := hw
            rw [hbk] at hw2
            exact Option.noConfusion hw2
      | some w =>
          simp only [hbk]
          constructor
          · rintro ⟨h1, h2⟩ p hp
            rcases hp with hp | hp
            · subst hp
              exact ⟨w, hbk, h1⟩
            · exact h2 p hp
          · intro h
            refine ⟨?_, fun p hp => h p (Or.inr hp)⟩
            obtain ⟨w', hw', hpy⟩ := h (k, v) (Or.inl rfl)
            have hw2 : dictGet? b k = some w' := hw'
            rw [hbk, Option.some.injEq] at hw2
            subst hw2
            exact hpy

/-- `wfVFields` gives well-formedness of every entry value. -/
theorem wfVFields_mem {m : List (String × Value)} {p : String × Value}
    (h : wfVFields m = true) (hp : p ∈ m) : wfV p.2 = true := by
  induction m with
  | nil => simp at hp
  | cons e rest ih =>
      obtain ⟨k, v⟩ := e
      simp only [wfVFields, Bool.and_eq_true] at h
      rcases List.mem_cons.mp hp with h1 | h1
      · subst h1
        exact h.1
      · exact ih h.2 h1

/-- `wfVList` gives well-formedness of every element. -/
theorem wfVList_mem {l : List Value} {x : Value}
    (h : wfVList l = true) (hx : x ∈ l) : wfV x = true := by
  induction l with
  | nil => simp at hx
  | cons y rest ih =>
      simp only [wfVList, Bool.and_eq_true] at h
      rcases List.mem_cons.mp hx with h1 | h1
      · subst h1
        exact h.1
      · exact ih h.2 h1

/-- `==` is symmetric for a lawful `BEq`. -/
theorem lawful_beq_comm {α : Type} [BEq α] [LawfulBEq α] (a b : α) :
    (a == b) = (b == a) := by
  by_cases h : a = b
  · subst h
    rfl
  · rw [beq_eq_false_iff_ne.mpr h, beq_eq_false_iff_ne.mpr (Ne.symm h)]

/-- Element-wise symmetry lifts to `pyEqList`. -/
theorem pyEqList_symm_of (a : List Value) : ∀ b : List Value,
    (∀ x ∈ a, ∀ y ∈ b, pyEq x y = pyEq y x) → pyEqList a b = pyEqList b a := by
  induction a with
  | nil => intro b _; cases b <;> simp [pyEqList]
  | cons x xs ih =>
      intro b H
      cases b with
      | nil => simp [pyEqList]
      | cons y ys =>
          simp only [pyEqList]
          rw [H x (List.mem_cons_self _ _) y (List.mem_cons_self _ _),
            ih ys (fun x' hx' y' hy' =>
              H x' (List.mem_cons_of_mem _ hx') y' (List.mem_cons_of_mem _ hy'))]

/-- One direction of mapping symmetry: with mutual key inclusion,
duplicate-free keys on the right, and entry-wise symmetry, a successful
left-to-right comparison yields a successful right-to-left one. -/
theorem pyEqFields_flip (a b : List (String × Value)) (hnb : nodupKeysB b = true)
    (hba : keysIncl b a = true)
    (H : ∀ p ∈ a, ∀ q ∈ b, pyEq p.2 q.2 = pyEq q.2 p.2)
    (hf : pyEqFields a b = true) : pyEqFields b a = true := by
  rw [pyEqFields_true_iff] at hf ⊢
  intro q hq
  have hcont : containsKey a q.1 = true := keysIncl_iff.mp hba q hq
  obtain ⟨v, hv⟩ := Option.isSome_iff_exists.mp hcont
  have hmem_a : (q.1, v) ∈ a := mem_of_dictGet? hv
  obtain ⟨w', hw', hpy⟩ := hf (q.1, v) hmem_a
  have hbq : dictGet? b q.1 = some q.2 := dictGet?_of_mem_nodup hnb hq
  rw [hbq, Option.some.injEq] at hw'
  subst hw'
  refine ⟨v, hv, ?_⟩
  rw [← H (q.1, v) hmem_a q hq]
  exact hpy

/-- Mapping symmetry from entry-wise symmetry, under duplicate-free keys
and mutual key inclusion. -/
theorem pyEqFields_symm_of (a b : List (String × Value))
    (hna : nodupKeysB a = true) (hnb : nodupKeysB b = true)
    (hab : keysIncl a b = true) (hba : keysIncl b a = true)
    (H : ∀ p ∈ a, ∀ q ∈ b, pyEq p.2 q.2 = pyEq q.2 p.2) :
    pyEqFields a b = pyEqFields b a := by
  cases hx : pyEqFields a b with
  | true => exact (pyEqFields_flip a b hnb hba H hx).symm
  | false =>
      cases hy : pyEqFields b a with
      | true =>
          have := pyEqFields_flip b a hna hab
            (fun q hq p hp => (H p hp q hq).symm) hy
          rw [this] at hx
          exact hx.symm
      | false => rfl

/-- `pyEq` is symmetric on well-formed values (strong induction on size). -/
theorem pyEq_symm_aux : ∀ n : Nat, ∀ v w : Value, sizeOf v + sizeOf w ≤ n →
    wfV v = true → wfV w = true → pyEq v w = pyEq w v := by
  intro n
  induction n with
  | zero =>
      intro v w hle
      exfalso
      cases v <;> simp at hle
  | succ n ih =>
      intro v w hle hv hw
      cases v <;> cases w <;> simp only [pyEq]
      case vStr.vStr a b => exact lawful_beq_comm a b
      case vInt.vInt a b => exact lawful_beq_comm a b
      case vList.vList a b =>
          simp only [wfV] at hv hw
          simp only [Value.vList.sizeOf_spec] at hle
          refine pyEqList_symm_of a b ?_
          intro x hx y hy
          have hsx := List.sizeOf_lt_of_mem hx
          have hsy := List.sizeOf_lt_of_mem hy
          exact ih x y (by omega) (wfVList_mem hv hx) (wfVList_mem hw hy)
      case vMap.vMap a b =>
          simp only [wfV, Bool.and_eq_true] at hv hw
          simp only [Value.vMap.sizeOf_spec] at hle
          cases hab : keysIncl a b with
          | false => cases hba : keysIncl b a <;> simp
          | true =>
              cases hba : keysIncl b a with
              | false => simp
              | true =>
                  simp only [Bool.true_and]
                  refine pyEqFields_symm_of a b hv.1 hw.1 hab hba ?_
                  intro p hp q hq
                  obtain ⟨k1, x⟩ := p
                  obtain ⟨k2, y⟩ := q
                  have h1 := List.sizeOf_lt_of_mem hp
                  have h2 := List.sizeOf_lt_of_mem hq
                  simp only [Prod.mk.sizeOf_spec] at h1 h2
                  exact ih x y (by omega) (wfVFields_mem hv.2 hp) (wfVFields_mem hw.2 hq)

/-- `pyEq` is symmetric on well-formed values. -/
theorem pyEq_symm (v w : Value) (hv : wfV v = true) (hw : wfV w = true) :
    pyEq v w = pyEq w v :=
  pyEq_symm_aux (sizeOf v + sizeOf w) v w le_rfl hv hw

/-- Every document in the history of a run is one of the ingested
documents, so it is well-formed when they are. -/
theorem documents_wf (ops : List Op) :
    ∀ st : DocumentMatcher, (∀ d ∈ st.documents, wfV d = true) →
      (∀ d, Op.addDoc d ∈ ops → wfV (.vMap d) = true) →
      ∀ d ∈ (runOps st ops).documents, wfV d = true := by
  induction ops with
  | nil => exact fun st h _ => h
  | cons op ops ih =>
      intro st hst hops
      refine ih (runOp st op) ?_ (fun d hd => hops d (List.mem_cons_of_mem _ hd))
      cases op with
      | addSample i desc => exact hst
      | addDoc d =>
          intro x hx
          rw [show (runOp st (Op.addDoc d)).documents =
              st.documents ++ [Value.vMap d] from (add_document_rest st d).1] at hx
          rcases List.mem_append.mp hx with h1 | h1
          · exact hst x h1
          · rw [List.mem_singleton] at h1
            subst h1
            exact hops d (List.mem_cons_self _ _)

/-- C4.  After any sequence of operations, no group holds two value-equal
documents: each member fails the `==` test against every later member, and
— on well-formed (Python-representable) inputs, where `==` is symmetric —
against every other member in either direction.  In particular a repeated
value-equal `add_document` never yields two entries, and a rescan never
re-appends an existing member. -/
theorem match_groups_no_duplicates :
    ∀ (ops : List Op) (gid : String) (g : List Value),
      dictGet? (runOps initMatcher ops).«matches» gid = some g →
      g.Pairwise (fun a b => pyEq a b = false) ∧
      ((∀ d, Op.addDoc d ∈ ops → wfV (.vMap d) = true) →
        g.Pairwise (fun a b => pyEq a b = false ∧ pyEq b a = false)) := by
  intro ops gid g hg
  have hinv := matcherInv_runOps ops initMatcher matcherInv_init
  have hpw := hinv.2.2.1 gid g hg
  refine ⟨hpw, fun hops => ?_⟩
  have hdocswf : ∀ d ∈ (runOps initMatcher ops).documents, wfV d = true :=
    documents_wf ops initMatcher (by intro d hd; simp [initMatcher] at hd) hops
  have hmemdocs := hinv.2.2.2 gid g hg
  refine hpw.imp_of_mem ?_
  intro a b ha hb hab
  have hwa : wfV a = true := hdocswf a (hmemdocs a ha)
  have hwb : wfV b = true := hdocswf b (hmemdocs b hb)
  exact ⟨hab, by rw [pyEq_symm b a hwb hwa]; exact hab⟩

/-- C4 witness: the two members of the scenario's group `"S"` are mutually
distinct under `==`. -/
theorem match_groups_no_duplicates_witness :
    List.Pairwise (fun a b => pyEq a b = false ∧ pyEq b a = false)
      [Value.vMap exD1, Value.vMap exD2] :=
  (match_groups_no_duplicates scenarioOps "S" [Value.vMap exD1, Value.vMap exD2]
      rfl).2
    (by
      intro d hd
      simp only [scenarioOps, List.mem_cons, List.not_mem_nil, or_false] at hd
      rcases hd with hd | hd | hd
      · exact absurd hd (by simp)
      · rw [Op.addDoc.injEq] at hd
        subst hd
        decide
      · rw [Op.addDoc.injEq] at hd
        subst hd
        decide)
